import Mathlib

/-!
Shallow embedding of the allocation / generation-orchestration / duplicate-detection
pipeline of `src/app.py` (HR evaluation sheet generator), together with theorems
settling the specification claims about it.

Modelling conventions:
* Python floats are modelled by exact rationals (`ℚ`).  All concrete inputs used in
  counterexamples and witnesses are chosen so that the float computations of the
  source are exact or far from rounding boundaries, so the rational model agrees
  with the float behaviour there.
* Python dicts keyed by the input key list are modelled by association lists
  `List (K × ℤ)` in insertion order.
* The generative model (the OpenAI chat call) is an external collaborator; it is
  modelled by an oracle function supplied as an argument.  Any failure of the call
  (exception, non-JSON output, missing key) is modelled by the oracle returning
  `[]` / `none`, exactly as the source's `try/except` collapses every failure into
  an empty result.
-/

attribute [local semireducible] Rat.mul Rat.add Rat.sub Rat.inv

set_option maxRecDepth 8000
set_option linter.unusedVariables false
set_option linter.unusedSectionVars false
set_option linter.unnecessarySeqFocus false

variable {K : Type} [DecidableEq K] [Inhabited K]

/-- Python's built-in `round` (round half to even, "banker's rounding") on exact
rationals, as applied by `allocate_counts` to `total * weight / wsum`
(src/app.py line 385). -/
def pyRound (q : ℚ) : ℤ :=
  let f : ℤ := ⌊q⌋
  if q - f < 1/2 then f
  else if 1/2 < q - f then f + 1
  else if f % 2 = 0 then f else f + 1

/-- Dict read `d[k]` on an association list (0 if the key is absent; in the
source's uses the key is always present when the dict is read). -/
def lookupA : List (K × ℤ) → K → ℤ
  | [], _ => 0
  | p :: l, k => if p.1 = k then p.2 else lookupA l k

/-- Dict write `d[k] = v` on an association list (a no-op if the key is absent,
which never happens in the source's uses). -/
def updA (l : List (K × ℤ)) (k : K) (v : ℤ) : List (K × ℤ) :=
  l.map (fun p => if p.1 = k then (p.1, v) else p)

/-- Dict update `d[k] += δ` on an association list. -/
def updAdd (l : List (K × ℤ)) (k : K) (δ : ℤ) : List (K × ℤ) :=
  l.map (fun p => if p.1 = k then (p.1, p.2 + δ) else p)

/-- Embeds `sum(d.values())` on an association list. -/
def sumVals (l : List (K × ℤ)) : ℤ :=
  (l.map Prod.snd).sum

/-- Python's `sorted(keys, key=lambda k: float(weights.get(k, 1.0)), reverse=True)`
(src/app.py lines 376, 391): a stable sort, descending by weight, ties keeping
input order.  Insertion sort with the relation `w b ≤ w a` is exactly such a
stable descending sort. -/
def pySortDesc (w : K → ℚ) (keys : List K) : List K :=
  keys.insertionSort (fun a b => w b ≤ w a)

/-- The rebalancing loop of `allocate_counts` (src/app.py lines 392-402):
`while diff != 0 and i < 10000`, with `k = sorted_keys[i % n]`, incrementing
`target[k]` when `diff > 0` and decrementing it (only when above 1) when
`diff < 0`.  The third argument is the remaining fuel `10000 - i`; the result is
the final `(i, diff, target)`. -/
def rebalanceAux (sk : List K) (n : ℕ) : ℕ → ℕ → ℤ → List (K × ℤ) → ℕ × ℤ × List (K × ℤ)
  | 0, i, diff, t => (i, diff, t)
  | fuel + 1, i, diff, t =>
    if diff = 0 then (i, diff, t)
    else
      let k := sk.getD (i % n) default
      if 0 < diff then rebalanceAux sk n fuel (i + 1) (diff - 1) (updAdd t k 1)
      else if 1 < lookupA t k then rebalanceAux sk n fuel (i + 1) (diff + 1) (updAdd t k (-1))
      else rebalanceAux sk n fuel (i + 1) diff t

/-- The effective weight sum used by `allocate_counts` (src/app.py lines 381-383):
`wsum = sum(float(weights.get(k, 1.0)) for k in keys)`, replaced by `float(n)`
when it is `≤ 0`. -/
def wsumEff (keys : List K) (w : K → ℚ) : ℚ :=
  let s := (keys.map w).sum
  if s ≤ 0 then (keys.length : ℚ) else s

/-- The rounded-and-floored target dict of `allocate_counts` (src/app.py lines
385-388): `target[k] = round(total * w(k) / wsum)` for each key in input order,
then every entry below 1 is raised to 1. -/
def allocTargets (total : ℤ) (keys : List K) (w : K → ℚ) : List (K × ℤ) :=
  (keys.map fun k => (k, pyRound ((total : ℚ) * w k / wsumEff keys w))).map
    (fun p => if p.2 < 1 then (p.1, 1) else p)

/-- The `(i, diff, target)` state after the rebalancing loop of `allocate_counts`
has run (src/app.py lines 390-402), starting from the rounded-and-floored
targets with `diff = total - sum(target.values())` and `i = 0`. -/
def rebalanced (total : ℤ) (keys : List K) (w : K → ℚ) : ℕ × ℤ × List (K × ℤ) :=
  rebalanceAux (pySortDesc w keys) keys.length 10000 0
    (total - sumVals (allocTargets total keys w)) (allocTargets total keys w)

/-- Embeds `allocate_counts(total, keys, weights)` (src/app.py lines 369-408).  The
weight mapping is taken as a total function `K → ℚ`, the source's
`float(weights.get(k, 1.0))` applied pointwise.  After the rebalancing loop the
residual `diff2 = total - sum(target.values())` is dumped (if nonzero) onto the
highest-weight key `sorted_keys[0]` (lines 404-406). -/
def allocate_counts (total : ℤ) (keys : List K) (w : K → ℚ) : List (K × ℤ) :=
  if total ≤ 0 ∨ keys.length = 0 then keys.map fun k => (k, 0)
  else if total < (keys.length : ℤ) then
    ((pySortDesc w keys).take total.toNat).foldl (fun a k => updA a k 1)
      (keys.map fun k => (k, 0))
  else if total - sumVals (rebalanced total keys w).2.2 ≠ 0 then
    updAdd (rebalanced total keys w).2.2 ((pySortDesc w keys).getD 0 default)
      (total - sumVals (rebalanced total keys w).2.2)
  else (rebalanced total keys w).2.2

/-- Embeds `default_weight_by_level` (src/app.py lines 294-299). -/
def default_weight_by_level (level : String) : ℤ :=
  if level = "Lv1" then 1
  else if level = "Lv2" then 2
  else 3

/-- Embeds `normalize_weight(w, level)` (src/app.py lines 302-311).  The model-returned
weight is `none` when missing or non-numeric (the source's `int(w)` raising), in
which case the level default is substituted; the result is then clamped into
`[1, 5]` by the two `if`s of the source. -/
def normalize_weight (w : Option ℤ) (level : String) : ℤ :=
  let wi := match w with
    | none => default_weight_by_level level
    | some n => n
  let wi1 := if wi < 1 then 1 else wi
  if wi1 > 5 then 5 else wi1

/-- Python's `str.strip()` (leading and trailing whitespace removed), modelled
on the character list so that it evaluates by kernel reduction. -/
def pyStrip (s : String) : String :=
  ⟨((s.data.dropWhile Char.isWhitespace).reverse.dropWhile Char.isWhitespace).reverse⟩

/-- One generated evaluation item, as built by `generate_items`
(src/app.py lines 698-709). -/
structure Item where
  category_large_key : String
  category_large_name : String
  category_medium : String
  full_sentence : String
  purpose : String
  action : String
  result : String
  weight : ℤ
deriving DecidableEq, Inhabited

/-- One raw entry of the model's `items` JSON array, before acceptance
(src/app.py lines 693-709).  String fields model the source's
`it.get(field, "")`; `weight` is `none` when the `weight` entry is missing or
non-numeric. -/
structure RawItem where
  purpose : String
  action : String
  result : String
  full_sentence : String
  weight : Option ℤ
deriving DecidableEq, Inhabited

/-- The mutable state of the generation loop of `generate_items`: the
accumulating `final` item list and the running `seen_q` set of accepted
sentences (modelled as a list; only membership is used). -/
structure FillState where
  final : List Item
  seen : List String
deriving DecidableEq, Inhabited

/-- The item dict appended by `generate_items` for an accepted candidate
(src/app.py lines 698-709): `q` is the stripped sentence, the rationale fields
are copied, and the weight is normalized. -/
def mkGenItem (mk mname med level : String) (it : RawItem) (q : String) : Item :=
  { category_large_key := mk
    category_large_name := mname
    category_medium := med
    full_sentence := q
    purpose := it.purpose
    action := it.action
    result := it.result
    weight := normalize_weight it.weight level }

/-- The `for it in got` acceptance loop of `generate_items` (src/app.py lines
692-710): strips each candidate sentence, skips empty or already-seen ones, and
appends the rest while recording their sentences in `seen_q`; returns the new
state and the `added` counter. -/
def acceptItems (mk mname med level : String) : List RawItem → FillState → FillState × ℕ
  | [], st => (st, 0)
  | it :: rest, st =>
    let q := pyStrip it.full_sentence
    if q = "" ∨ q ∈ st.seen then acceptItems mk mname med level rest st
    else
      let st1 : FillState :=
        { final := st.final ++ [mkGenItem mk mname med level it q], seen := q :: st.seen }
      let r := acceptItems mk mname med level rest st1
      (r.1, r.2 + 1)

/-- An oracle abstracting `call_model_for_questions` (src/app.py lines 456-519):
argument order is (round number, requested count `n_med`, existing questions).
A failing or malformed model call is the oracle returning `[]`, exactly as the
source's `try/except` returns `[]`. -/
def GenOracle : Type := ℕ → ℤ → List String → List RawItem

/-- The per-medium round loop of `generate_items` (src/app.py lines 666-715):
`while n_med > 0 and rounds < 3`, requesting `n_med` items, accepting the novel
ones, decreasing `n_med` by the number accepted, and stopping early when a round
accepts nothing.  The first numeric argument is the remaining round budget
`3 - rounds`; the second is the current `rounds` value (used to index the
oracle). -/
def fill_medium (oracle : GenOracle) (mk mname med level : String) :
    ℕ → ℕ → ℤ → FillState → FillState
  | 0, _, _, st => st
  | fuel + 1, rounds, n_med, st =>
    if n_med ≤ 0 then st
    else if (acceptItems mk mname med level
        (oracle (rounds + 1) n_med
          ((st.final.map Item.full_sentence).filter fun s => s ≠ "")) st).2 = 0 then
      (acceptItems mk mname med level
        (oracle (rounds + 1) n_med
          ((st.final.map Item.full_sentence).filter fun s => s ≠ "")) st).1
    else
      fill_medium oracle mk mname med level fuel (rounds + 1)
        (n_med - ((acceptItems mk mname med level
          (oracle (rounds + 1) n_med
            ((st.final.map Item.full_sentence).filter fun s => s ≠ "")) st).2 : ℤ))
        (acceptItems mk mname med level
          (oracle (rounds + 1) n_med
            ((st.final.map Item.full_sentence).filter fun s => s ≠ "")) st).1

/-- One record of the `duplicates` list built by `check_duplicates`
(src/app.py line 536): `(i, items[i], j, items[j], score, dup_type)`. -/
structure DupEntry where
  idxA : ℕ
  itemA : Item
  idxB : ℕ
  itemB : Item
  score : ℚ
  dup_type : String
deriving DecidableEq

/-- Embeds `check_duplicates(items, threshold)` (src/app.py lines 522-537).  `sim`
abstracts `difflib.SequenceMatcher(None, s1, s2).ratio()` on the stripped
sentences; the scan is over all pairs `i < j`, skipping pairs with an empty
stripped sentence, flagging pairs with `score >= threshold` and classifying
them `"group"` when the two category keys coincide and `"global"` otherwise. -/
def check_duplicates (sim : String → String → ℚ) (items : List Item) (threshold : ℚ) :
    List DupEntry :=
  (List.range items.length).flatMap fun i =>
    ((List.range items.length).filter (fun j => i < j)).filterMap fun j =>
      let s1 := pyStrip (items.getD i default).full_sentence
      let s2 := pyStrip (items.getD j default).full_sentence
      if s1 = "" ∨ s2 = "" then none
      else if threshold ≤ sim s1 s2 then
        some
          { idxA := i
            itemA := items.getD i default
            idxB := j
            itemB := items.getD j default
            score := sim s1 s2
            dup_type :=
              if (items.getD i default).category_large_key =
                  (items.getD j default).category_large_key then "group"
              else "global" }
      else none

/-- The parsed JSON object of a successful regeneration call (src/app.py line
601).  Each field is `some v` when the corresponding key is present in the
model's JSON object and `none` otherwise; `dict.update` overwrites exactly the
present keys.  The weight value is modelled as an integer when present. -/
structure RegenResponse where
  purpose : Option String
  action : Option String
  result : Option String
  full_sentence : Option String
  weight : Option ℤ
  category_large_key : Option String
  category_large_name : Option String
  category_medium : Option String
deriving DecidableEq, Inhabited

/-- Embeds `regenerate_specific_item` (src/app.py lines 540-604).  `call` abstracts the
whole guarded section: `none` models a missing client (line 554) or any failure
of the API call / JSON parse (the `except` on line 603), in which case the
original item is returned unchanged; `some r` models a successful parse, in
which case the source copies the item and applies `dict.update` with the parsed
object, overwriting exactly the keys present in it.  The `mode` argument only
shapes the prompt in the source (lines 557-561) and does not affect the result
shape. -/
def regenerate_specific_item (call : Option RegenResponse) (item : Item)
    (mode : String) (existing_questions : List String) : Item :=
  match call with
  | none => item
  | some r =>
    { category_large_key := r.category_large_key.getD item.category_large_key
      category_large_name := r.category_large_name.getD item.category_large_name
      category_medium := r.category_medium.getD item.category_medium
      full_sentence := r.full_sentence.getD item.full_sentence
      purpose := r.purpose.getD item.purpose
      action := r.action.getD item.action
      result := r.result.getD item.result
      weight := r.weight.getD item.weight }

/-- The weight mapping of the cap-exhaustion counterexample to claim C6:
two heavy keys (weight 1) followed by 148 tiny positive weights (0.001). -/
def wC6 : ℕ → ℚ := fun k => if k < 2 then 1 else 1/1000

/-- The regular shape of the rebalancing-loop state in the C6 counterexample:
the two heavy keys hold `a` and `b`, the 148 tiny keys hold 1. -/
def cexState (a b : ℤ) : List (ℕ × ℤ) :=
  (0, a) :: (1, b) :: (List.range' 2 148).map fun k => (k, (1 : ℤ))

/-- An oracle that over-returns: asked for any count in round 1, it returns two
distinct novel items (a model response ignoring the requested count). -/
def oracleC2 : GenOracle := fun r _ _ =>
  if r = 1 then
    [{ purpose := "", action := "", result := "", full_sentence := "s1", weight := some 3 },
     { purpose := "", action := "", result := "", full_sentence := "s2", weight := some 99 }]
  else []

/-- A base item used by the concrete regeneration examples. -/
def itemBase : Item :=
  { category_large_key := "I"
    category_large_name := "Name"
    category_medium := "M"
    full_sentence := "orig"
    purpose := "p0"
    action := "a0"
    result := "r0"
    weight := 3 }

/-- A similarity function for concrete detector examples: 1 on equal strings,
0 otherwise (an extreme instance of the abstract SequenceMatcher ratio). -/
def simExact : String → String → ℚ := fun a b => if a = b then 1 else 0

/-- First concrete item for the detector examples. -/
def itemD1 : Item :=
  { category_large_key := "I"
    category_large_name := "Name"
    category_medium := "M1"
    full_sentence := "dup"
    purpose := ""
    action := ""
    result := ""
    weight := 3 }

/-- Second concrete item for the detector examples (same category key and same
sentence as the first). -/
def itemD2 : Item :=
  { category_large_key := "I"
    category_large_name := "Name"
    category_medium := "M2"
    full_sentence := "dup"
    purpose := ""
    action := ""
    result := ""
    weight := 3 }

/-- The second item that `fill_medium` generates from `oracleC2` on a request
for one item: the model weight 99 is clamped to 5. -/
def itemGen2 : Item :=
  { category_large_key := "I"
    category_large_name := "N"
    category_medium := "M"
    full_sentence := "s2"
    purpose := ""
    action := ""
    result := ""
    weight := 5 }

/-! ### Association lists in canonical form

Every dict appearing in `allocate_counts` is of the shape
`keys.map fun k => (k, g k)` for some value function `g`; the lemmas below
compute the dict operations on that shape. -/

theorem lookupA_map_fn (keys : List K) (g : K → ℤ) (x : K) :
    lookupA (keys.map fun k => (k, g k)) x = if x ∈ keys then g x else 0 := by
  induction keys with
  | nil => simp [lookupA]
  | cons h t ih =>
    by_cases hx : h = x
    · subst hx
      simp [lookupA]
    · simp only [List.map_cons, lookupA, hx, if_false, ih, List.mem_cons]
      have : ¬x = h := fun e => hx e.symm
      simp [this]

theorem updA_map_fn (keys : List K) (g : K → ℤ) (c : K) (v : ℤ) :
    updA (keys.map fun k => (k, g k)) c v =
      keys.map fun k => (k, if k = c then v else g k) := by
  simp only [updA, List.map_map]
  apply List.map_congr_left
  intro a _
  by_cases h : a = c <;> simp [h]

theorem updAdd_map_fn (keys : List K) (g : K → ℤ) (c : K) (δ : ℤ) :
    updAdd (keys.map fun k => (k, g k)) c δ =
      keys.map fun k => (k, if k = c then g k + δ else g k) := by
  simp only [updAdd, List.map_map]
  apply List.map_congr_left
  intro a _
  by_cases h : a = c <;> simp [h]

theorem sumVals_map_fn (keys : List K) (g : K → ℤ) :
    sumVals (keys.map fun k => (k, g k)) = (keys.map g).sum := by
  simp only [sumVals, List.map_map]
  rfl

theorem map_if_eq_of_not_mem (l : List K) (c : K) (f1 f2 : K → ℤ) (h : c ∉ l) :
    (l.map fun k => if k = c then f1 k else f2 k) = l.map f2 := by
  apply List.map_congr_left
  intro a ha
  have : a ≠ c := fun e => h (e ▸ ha)
  simp [this]

theorem sum_map_update_of_mem (keys : List K) (g : K → ℤ) (c : K) (δ : ℤ)
    (hnd : keys.Nodup) (hc : c ∈ keys) :
    (keys.map fun k => if k = c then g k + δ else g k).sum = (keys.map g).sum + δ := by
  induction keys with
  | nil => cases hc
  | cons hd tl ih =>
    rcases List.nodup_cons.mp hnd with ⟨hht, hnd'⟩
    rcases List.mem_cons.mp hc with rfl | hct
    · rw [List.map_cons, List.map_cons, List.sum_cons, List.sum_cons, if_pos rfl,
        map_if_eq_of_not_mem tl c (fun k => g k + δ) g hht]
      ring
    · have hhc : hd ≠ c := fun e => hht (e ▸ hct)
      rw [List.map_cons, List.map_cons, List.sum_cons, List.sum_cons, if_neg hhc,
        ih hnd' hct]
      ring

theorem sum_map_ite_one (l : List K) (p : K → Prop) [DecidablePred p] :
    (l.map fun k => if p k then (1 : ℤ) else 0).sum =
      ((l.countP fun k => decide (p k)) : ℤ) := by
  induction l with
  | nil => simp
  | cons h t ih =>
    by_cases hp : p h <;> simp [List.countP_cons, hp, ih] <;> ring

/-! ### The rebalancing loop preserves canonical form, the running sum
invariant `diff + sum = const`, and lower bounds on all values. -/

theorem getD_mem_of_lt {α : Type} (l : List α) (i : ℕ) (d : α) (h : i < l.length) :
    l.getD i d ∈ l := by
  rw [List.getD_eq_getElem?_getD, List.getElem?_eq_getElem h, Option.getD_some]
  exact List.getElem_mem h

theorem rebalanceAux_spec (sk : List K) (keys : List K) (n : ℕ)
    (hsk : ∀ x ∈ sk, x ∈ keys) (hlen : sk.length = n) (hn : 0 < n)
    (hnd : keys.Nodup) :
    ∀ (fuel i : ℕ) (d : ℤ) (g : K → ℤ), ∃ g' : K → ℤ,
      rebalanceAux sk n fuel i d (keys.map fun k => (k, g k)) =
        ((rebalanceAux sk n fuel i d (keys.map fun k => (k, g k))).1,
          (rebalanceAux sk n fuel i d (keys.map fun k => (k, g k))).2.1,
          keys.map fun k => (k, g' k)) ∧
      (rebalanceAux sk n fuel i d (keys.map fun k => (k, g k))).2.1 +
          (keys.map g').sum = d + (keys.map g).sum ∧
      (∀ x, 1 ≤ g x → 1 ≤ g' x) := by
  intro fuel
  induction fuel with
  | zero =>
    intro i d g
    exact ⟨g, rfl, by simp [rebalanceAux], fun x h => h⟩
  | succ fuel ih =>
    intro i d g
    by_cases hd : d = 0
    · exact ⟨g, by simp [rebalanceAux, hd], by simp [rebalanceAux, hd], fun x h => h⟩
    · have hk : sk.getD (i % n) default ∈ keys := by
        apply hsk
        apply getD_mem_of_lt
        rw [hlen]
        exact Nat.mod_lt _ hn
      set k0 := sk.getD (i % n) default with hk0
      by_cases hpos : 0 < d
      · -- increment branch
        have heq : rebalanceAux sk n (fuel + 1) i d (keys.map fun k => (k, g k)) =
            rebalanceAux sk n fuel (i + 1) (d - 1)
              (keys.map fun k => (k, if k = k0 then g k + 1 else g k)) := by
          rw [rebalanceAux]
          rw [if_neg hd, if_pos hpos, updAdd_map_fn]
        obtain ⟨g', h1, h2, h3⟩ := ih (i + 1) (d - 1) (fun k => if k = k0 then g k + 1 else g k)
        refine ⟨g', by rw [heq]; exact h1, ?_, ?_⟩
        · rw [heq, h2, sum_map_update_of_mem keys g k0 1 hnd hk]
          ring
        · intro x hx
          apply h3
          by_cases hxk : x = k0
          · simp only [if_pos hxk]
            omega
          · simp only [if_neg hxk]
            exact hx
      · by_cases hgt : 1 < lookupA (keys.map fun k => (k, g k)) k0
        · -- decrement branch
          have hgk0 : 1 < g k0 := by
            rw [lookupA_map_fn, if_pos hk] at hgt
            exact hgt
          have heq : rebalanceAux sk n (fuel + 1) i d (keys.map fun k => (k, g k)) =
              rebalanceAux sk n fuel (i + 1) (d + 1)
                (keys.map fun k => (k, if k = k0 then g k + (-1) else g k)) := by
            rw [rebalanceAux]
            rw [if_neg hd, if_neg hpos, if_pos hgt, updAdd_map_fn]
          obtain ⟨g', h1, h2, h3⟩ :=
            ih (i + 1) (d + 1) (fun k => if k = k0 then g k + (-1) else g k)
          refine ⟨g', by rw [heq]; exact h1, ?_, ?_⟩
          · rw [heq, h2, sum_map_update_of_mem keys g k0 (-1) hnd hk]
            ring
          · intro x hx
            apply h3
            by_cases hxk : x = k0
            · simp only [if_pos hxk]
              rw [hxk]
              omega
            · simp only [if_neg hxk]
              exact hx
        · -- skip branch
          have heq : rebalanceAux sk n (fuel + 1) i d (keys.map fun k => (k, g k)) =
              rebalanceAux sk n fuel (i + 1) d (keys.map fun k => (k, g k)) := by
            rw [rebalanceAux]
            rw [if_neg hd, if_neg hpos, if_neg hgt]
          obtain ⟨g', h1, h2, h3⟩ := ih (i + 1) d g
          exact ⟨g', by rw [heq]; exact h1, by rw [heq]; exact h2, h3⟩

/-! ### The canonical form of the rounded-and-floored target dict. -/

/-- The value function of the rounded-and-floored target dict. -/
def targetFn (total : ℤ) (keys : List K) (w : K → ℚ) (k : K) : ℤ :=
  let v := pyRound ((total : ℚ) * w k / wsumEff keys w)
  if v < 1 then 1 else v

theorem allocTargets_eq_map_fn (total : ℤ) (keys : List K) (w : K → ℚ) :
    allocTargets total keys w = keys.map fun k => (k, targetFn total keys w k) := by
  simp only [allocTargets, List.map_map]
  apply List.map_congr_left
  intro a _
  simp only [Function.comp, targetFn]
  split <;> simp_all

theorem one_le_targetFn (total : ℤ) (keys : List K) (w : K → ℚ) (k : K) :
    1 ≤ targetFn total keys w k := by
  simp only [targetFn]
  split <;> omega

theorem sumVals_updAdd_canonical (keys : List K) (g : K → ℤ) (c : K) (δ : ℤ)
    (hnd : keys.Nodup) (hc : c ∈ keys) :
    sumVals (updAdd (keys.map fun k => (k, g k)) c δ) = (keys.map g).sum + δ := by
  rw [updAdd_map_fn, sumVals_map_fn, sum_map_update_of_mem keys g c δ hnd hc]

theorem pySortDesc_perm (w : K → ℚ) (keys : List K) :
    List.Perm (pySortDesc w keys) keys :=
  List.perm_insertionSort _ keys

theorem pySortDesc_mem (w : K → ℚ) (keys : List K) (x : K) (hx : x ∈ pySortDesc w keys) :
    x ∈ keys :=
  (pySortDesc_perm w keys).mem_iff.mp hx

theorem pySortDesc_length (w : K → ℚ) (keys : List K) :
    (pySortDesc w keys).length = keys.length :=
  (pySortDesc_perm w keys).length_eq

theorem pySortDesc_nodup (w : K → ℚ) (keys : List K) (hnd : keys.Nodup) :
    (pySortDesc w keys).Nodup :=
  ((pySortDesc_perm w keys).nodup_iff).mpr hnd

theorem foldl_updA_map_fn (keys : List K) (L : List K) (g : K → ℤ) :
    L.foldl (fun a k => updA a k 1) (keys.map fun k => (k, g k)) =
      keys.map fun k => (k, if k ∈ L then 1 else g k) := by
  induction L generalizing g with
  | nil => simp
  | cons c L ih =>
    rw [List.foldl_cons, updA_map_fn, ih]
    apply List.map_congr_left
    intro a _
    congr 1
    by_cases hc : a = c
    · simp [hc, List.mem_cons]
    · by_cases hL : a ∈ L <;> simp [hc, hL, List.mem_cons]

theorem countP_mem_eq_length (keys L : List K) (hnd : keys.Nodup) (hLnd : L.Nodup)
    (hsub : ∀ x ∈ L, x ∈ keys) :
    (keys.countP fun k => decide (k ∈ L)) = L.length := by
  rw [List.countP_eq_length_filter]
  have hperm : List.Perm (keys.filter fun k => decide (k ∈ L)) L := by
    apply (List.perm_ext_iff_of_nodup (List.Nodup.filter _ hnd) hLnd).mpr
    intro a
    simp only [List.mem_filter, decide_eq_true_eq]
    constructor
    · rintro ⟨-, h⟩
      exact h
    · intro h
      exact ⟨hsub a h, h⟩
  exact hperm.length_eq

/-- Core total-preservation property of `allocate_counts`, used by C1 and C10. -/
theorem allocate_counts_sumVals (total : ℤ) (keys : List K) (w : K → ℚ)
    (h0 : 0 ≤ total) (hne : keys ≠ []) (hnd : keys.Nodup) :
    sumVals (allocate_counts total keys w) = total := by
  rw [allocate_counts]
  by_cases ht0 : total ≤ 0 ∨ keys.length = 0
  · have htz : total = 0 := by
      rcases ht0 with h | h
      · omega
      · exact absurd (List.length_eq_zero.mp h) hne
    rw [if_pos ht0, htz]
    have : (keys.map fun k => (k, (0 : ℤ))) = keys.map fun k => (k, (fun _ => (0 : ℤ)) k) :=
      rfl
    rw [this, sumVals_map_fn]
    apply List.sum_eq_zero
    intro x hx
    rcases List.mem_map.mp hx with ⟨a, -, rfl⟩
    rfl
  · rw [if_neg ht0]
    push_neg at ht0
    by_cases htn : total < (keys.length : ℤ)
    · rw [if_pos htn]
      have hbase : (keys.map fun k => (k, (0 : ℤ))) =
          keys.map fun k => (k, (fun _ => (0 : ℤ)) k) := rfl
      rw [hbase, foldl_updA_map_fn, sumVals_map_fn]
      have hite : (keys.map fun k =>
          if k ∈ (pySortDesc w keys).take total.toNat then (1 : ℤ) else (fun _ => (0 : ℤ)) k) =
          keys.map fun k =>
            if k ∈ (pySortDesc w keys).take total.toNat then (1 : ℤ) else 0 := rfl
      rw [hite, sum_map_ite_one keys (fun k => k ∈ (pySortDesc w keys).take total.toNat)]
      have hchnd : ((pySortDesc w keys).take total.toNat).Nodup :=
        (pySortDesc_nodup w keys hnd).sublist (List.take_sublist _ _)
      have hchsub : ∀ x ∈ (pySortDesc w keys).take total.toNat, x ∈ keys := fun x hx =>
        pySortDesc_mem w keys x ((List.take_sublist _ _).subset hx)
      rw [countP_mem_eq_length keys _ hnd hchnd hchsub, List.length_take,
        pySortDesc_length]
      have htnn : (total.toNat : ℤ) = total := Int.toNat_of_nonneg h0
      have hlt : total.toNat ≤ keys.length := by omega
      rw [min_eq_left hlt]
      exact htnn
    · rw [if_neg htn]
      have hAT := allocTargets_eq_map_fn total keys w
      have hreb : rebalanced total keys w =
          rebalanceAux (pySortDesc w keys) keys.length 10000 0
            (total - sumVals (keys.map fun k => (k, targetFn total keys w k)))
            (keys.map fun k => (k, targetFn total keys w k)) := by
        rw [rebalanced, hAT]
      obtain ⟨g', hcanon, hsum, hge⟩ := rebalanceAux_spec (pySortDesc w keys) keys
        keys.length (pySortDesc_mem w keys) (pySortDesc_length w keys)
        (by cases keys with
            | nil => exact absurd rfl hne
            | cons a l => exact Nat.succ_pos _)
        hnd 10000 0
        (total - sumVals (keys.map fun k => (k, targetFn total keys w k)))
        (targetFn total keys w)
      have ht' : (rebalanced total keys w).2.2 = keys.map fun k => (k, g' k) := by
        rw [hreb]
        exact congrArg (fun p => p.2.2) hcanon
      by_cases hd2 : total - sumVals (rebalanced total keys w).2.2 ≠ 0
      · rw [if_pos hd2]
        have hk0 : (pySortDesc w keys).getD 0 default ∈ keys := by
          apply pySortDesc_mem
          apply getD_mem_of_lt
          rw [pySortDesc_length]
          cases keys with
          | nil => exact absurd rfl hne
          | cons a l => exact Nat.succ_pos _
        rw [ht', sumVals_updAdd_canonical keys g' _ _ hnd hk0, ← sumVals_map_fn, ← ht']
        omega
      · rw [if_neg hd2]
        push_neg at hd2
        omega

/-- C1: for every `total ≥ 0` and every non-empty, duplicate-free key list with
any weight mapping, the allocation returned by `allocate_counts` sums exactly to
`total`, including after the rebalancing loop and its cap-exhaustion fallback. -/
theorem allocate_counts_sum_eq_total (total : ℤ) (keys : List K) (w : K → ℚ)
    (h0 : 0 ≤ total) (hne : keys ≠ []) (hnd : keys.Nodup) :
    sumVals (allocate_counts total keys w) = total :=
  allocate_counts_sumVals total keys w h0 hne hnd

theorem allocate_counts_sum_eq_total_witness :
    sumVals (allocate_counts 7 [0, 1, 2] (fun k => (k : ℚ) + 1)) = 7 :=
  allocate_counts_sum_eq_total 7 [0, 1, 2] (fun k => (k : ℚ) + 1) (by decide)
    (by decide) (by decide)

/-- C10: when the supplied weight sum over the keys is zero or negative,
`allocate_counts` substitutes the key count `n` for the weight sum (so the share
computation's divisor is the nonzero `n` rather than the degenerate sum), and the
function still returns a total-preserving allocation for every
`total ≥ |keys|`. -/
theorem allocate_counts_nonpositive_wsum_spec (total : ℤ) (keys : List K) (w : K → ℚ)
    (hw : (keys.map w).sum ≤ 0) (hne : keys ≠ []) (hnd : keys.Nodup)
    (ht : (keys.length : ℤ) ≤ total) :
    wsumEff keys w = (keys.length : ℚ) ∧ wsumEff keys w ≠ 0 ∧
      sumVals (allocate_counts total keys w) = total := by
  have hlen : 0 < keys.length := by
    cases keys with
    | nil => exact absurd rfl hne
    | cons a l => exact Nat.succ_pos _
  refine ⟨by rw [wsumEff, if_pos hw], ?_, ?_⟩
  · rw [wsumEff, if_pos hw]
    exact Nat.cast_ne_zero.mpr (by omega)
  · exact allocate_counts_sumVals total keys w (by omega) hne hnd

theorem allocate_counts_nonpositive_wsum_witness :
    wsumEff [0, 1] (fun _ : ℕ => (0 : ℚ)) = 2 ∧
      sumVals (allocate_counts 5 [0, 1] (fun _ : ℕ => (0 : ℚ))) = 5 := by
  have h := allocate_counts_nonpositive_wsum_spec 5 [0, 1] (fun _ : ℕ => (0 : ℚ))
    (by decide) (by decide) (by decide) (by decide)
  exact ⟨by rw [h.1]; norm_num, h.2.2⟩

/-- C3 counterexample: on `total = 10`, keys `[A, B]`, weights `A ↦ 1, B ↦ 3`,
the code does not return `A: 3, B: 7`: Python's banker's rounding sends the raw
shares `2.5` and `7.5` to `2` and `8` (not `3` and `8`), the sum is already 10,
and the rebalancing loop changes nothing. -/
theorem allocate_counts_ten_one_three_cex :
    lookupA (allocate_counts 10 ["A", "B"] (fun k => if k = "A" then (1 : ℚ) else 3)) "A" ≠ 3 ∧
      lookupA (allocate_counts 10 ["A", "B"] (fun k => if k = "A" then (1 : ℚ) else 3)) "B" ≠ 7 := by
  constructor <;> decide

/-- C3 amended: `allocate_counts(10, [A, B], {A: 1.0, B: 3.0})` returns the
allocation `A: 2, B: 8` (raw shares `2.5` and `7.5`, rounded half-to-even by
Python's `round` to `2` and `8`, which already sum to 10). -/
theorem allocate_counts_ten_one_three :
    allocate_counts 10 ["A", "B"] (fun k => if k = "A" then (1 : ℚ) else 3) =
      [("A", 2), ("B", 8)] := by
  decide

/-! ### The C6 cap-exhaustion counterexample, evaluated symbolically.

On 150 keys with two heavy weights and 148 tiny positive weights, the
rounded-and-floored targets are `[70, 70, 1, …, 1]` with `diff = -138`; every
150-iteration cycle of the rebalancing loop performs exactly two decrements
(on the two heavy keys) and 148 skips, so the 10000-iteration cap is exhausted
with `diff = -4` still outstanding, and the fallback pushes the top key to
`3 - 4 = -1`. -/

theorem skC6_eq : pySortDesc wC6 (List.range 150) = List.range 150 := by decide

theorem allocTargets_C6 : allocTargets 150 (List.range 150) wC6 = cexState 70 70 := by
  decide

theorem getD_range150 (j : ℕ) (h : j < 150) : (List.range 150).getD j default = j := by
  rw [List.getD_eq_getElem?_getD, List.getElem?_range h, Option.getD_some]

theorem lookupA_ones (j : ℕ) : ∀ (m s : ℕ), s ≤ j → j < s + m →
    lookupA ((List.range' s m).map fun k => (k, (1 : ℤ))) j = 1 := by
  intro m
  induction m with
  | zero =>
    intro s h1 h2
    omega
  | succ m ih =>
    intro s h1 h2
    rw [List.range'_succ, List.map_cons, lookupA]
    by_cases hs : s = j
    · rw [if_pos hs]
    · rw [if_neg hs]
      exact ih (s + 1) (by omega) (by omega)

theorem lookupA_cexState_zero (a b : ℤ) : lookupA (cexState a b) 0 = a := rfl

theorem lookupA_cexState_one (a b : ℤ) : lookupA (cexState a b) 1 = b := rfl

theorem lookupA_cexState_big (a b : ℤ) (j : ℕ) (h1 : 2 ≤ j) (h2 : j < 150) :
    lookupA (cexState a b) j = 1 := by
  have h0 : (0 : ℕ) ≠ j := by omega
  have h1' : (1 : ℕ) ≠ j := by omega
  rw [show cexState a b =
      (0, a) :: (1, b) :: ((List.range' 2 148).map fun k => (k, (1 : ℤ))) from rfl,
    lookupA, if_neg h0, lookupA, if_neg h1']
  exact lookupA_ones j 148 2 h1 (by omega)

theorem updAdd_ones_range' (s m : ℕ) (c : ℕ) (δ : ℤ) (hc : c < s) :
    List.map (fun p => if p.1 = c then (p.1, p.2 + δ) else p)
      ((List.range' s m).map fun k => (k, (1 : ℤ))) =
      (List.range' s m).map fun k => (k, (1 : ℤ)) := by
  rw [List.map_map]
  apply List.map_congr_left
  intro x hx
  have hsx : s ≤ x := (List.mem_range'_1.mp hx).1
  have hxc : ¬x = c := by omega
  simp [hxc]

theorem updAdd_cexState_zero (a b δ : ℤ) :
    updAdd (cexState a b) 0 δ = cexState (a + δ) b := by
  rw [show cexState a b =
      (0, a) :: (1, b) :: ((List.range' 2 148).map fun k => (k, (1 : ℤ))) from rfl,
    show cexState (a + δ) b =
      (0, a + δ) :: (1, b) :: ((List.range' 2 148).map fun k => (k, (1 : ℤ))) from rfl,
    updAdd, List.map_cons, List.map_cons]
  rw [updAdd_ones_range' 2 148 0 δ (by omega)]
  norm_num

theorem updAdd_cexState_one (a b δ : ℤ) :
    updAdd (cexState a b) 1 δ = cexState a (b + δ) := by
  rw [show cexState a b =
      (0, a) :: (1, b) :: ((List.range' 2 148).map fun k => (k, (1 : ℤ))) from rfl,
    show cexState a (b + δ) =
      (0, a) :: (1, b + δ) :: ((List.range' 2 148).map fun k => (k, (1 : ℤ))) from rfl,
    updAdd, List.map_cons, List.map_cons]
  rw [updAdd_ones_range' 2 148 1 δ (by omega)]
  norm_num

theorem rebalance_skip (sk : List K) (n : ℕ) :
    ∀ (m fuel i : ℕ) (d : ℤ) (t : List (K × ℤ)), d < 0 →
      (∀ j, j < m → lookupA t (sk.getD ((i + j) % n) default) ≤ 1) →
      rebalanceAux sk n (m + fuel) i d t = rebalanceAux sk n fuel (i + m) d t := by
  intro m
  induction m with
  | zero =>
    intro fuel i d t _ _
    norm_num
  | succ m ih =>
    intro fuel i d t hd hlook
    have e1 : m + 1 + fuel = (m + fuel) + 1 := by omega
    rw [e1, rebalanceAux, if_neg (by omega : ¬d = 0), if_neg (by omega : ¬0 < d)]
    have hg : ¬1 < lookupA t (sk.getD (i % n) default) := by
      have := hlook 0 (by omega)
      rw [Nat.add_zero] at this
      omega
    rw [if_neg hg]
    rw [ih fuel (i + 1) d t hd
      (fun j hj => by
        have := hlook (j + 1) (by omega)
        rwa [show i + (j + 1) = i + 1 + j from by omega] at this)]
    congr 1
    omega

theorem cex_two_decs (i : ℕ) (a d : ℤ) (fuel : ℕ) (hmod : i % 150 = 0)
    (ha : 1 < a) (hd : d + 2 ≤ 0) :
    rebalanceAux (List.range 150) 150 (fuel + 2) i d (cexState a a) =
      rebalanceAux (List.range 150) 150 fuel (i + 2) (d + 2) (cexState (a - 1) (a - 1)) := by
  rw [show fuel + 2 = (fuel + 1) + 1 from rfl, rebalanceAux,
    if_neg (by omega : ¬d = 0), if_neg (by omega : ¬0 < d), hmod,
    show (List.range 150).getD 0 default = 0 from getD_range150 0 (by omega),
    lookupA_cexState_zero, if_pos (by omega : 1 < a), updAdd_cexState_zero,
    rebalanceAux, if_neg (by omega : ¬d + 1 = 0), if_neg (by omega : ¬0 < d + 1),
    show (i + 1) % 150 = 1 from by omega,
    show (List.range 150).getD 1 default = 1 from getD_range150 1 (by omega),
    lookupA_cexState_one, if_pos (by omega : 1 < a), updAdd_cexState_one]
  rw [show a + -1 = a - 1 from by ring, show d + 1 + 1 = d + 2 from by ring,
    show i + 1 + 1 = i + 2 from by omega]

theorem cex_pass : ∀ (p : ℕ), ∀ (i : ℕ) (a d : ℤ) (fuel : ℕ),
    i % 150 = 0 → (p : ℤ) + 1 < a → d + 2 * (p : ℤ) < 0 →
    rebalanceAux (List.range 150) 150 (150 * p + fuel) i d (cexState a a) =
      rebalanceAux (List.range 150) 150 fuel (i + 150 * p) (d + 2 * (p : ℤ))
        (cexState (a - (p : ℤ)) (a - (p : ℤ))) := by
  intro p
  induction p with
  | zero =>
    intro i a d fuel _ _ _
    norm_num
  | succ p ih =>
    intro i a d fuel hmod hp hd
    have hp' : (p : ℤ) + 2 < a := by push_cast at hp; omega
    have hd' : d + 2 * (p : ℤ) + 2 < 0 := by push_cast at hd; omega
    rw [show 150 * (p + 1) + fuel = (148 + (150 * p + fuel)) + 2 from by omega,
      cex_two_decs i a d (148 + (150 * p + fuel)) hmod (by omega) (by omega),
      rebalance_skip (List.range 150) 150 148 (150 * p + fuel) (i + 2) (d + 2)
        (cexState (a - 1) (a - 1)) (by omega)
        (fun j hj => by
          rw [show (i + 2 + j) % 150 = 2 + j from by omega,
            getD_range150 (2 + j) (by omega),
            lookupA_cexState_big (a - 1) (a - 1) (2 + j) (by omega) (by omega)]),
      show i + 2 + 148 = i + 150 from by omega,
      ih (i + 150) (a - 1) (d + 2) fuel (by omega) (by omega) (by omega)]
    congr 1
    · omega
    · rw [show d + 2 + 2 * (p : ℤ) = d + 2 * ((p : ℤ) + 1) from by ring]
      push_cast
      ring_nf
    · rw [show a - 1 - (p : ℤ) = a - ((p : ℤ) + 1) from by ring]
      push_cast
      ring_nf

theorem cex_rebalanced :
    rebalanced 150 (List.range 150) wC6 = (10000, -4, cexState 3 3) := by
  rw [rebalanced, skC6_eq, allocTargets_C6,
    show (150 : ℤ) - sumVals (cexState 70 70) = -138 from by decide,
    show (List.range 150).length = 150 from by simp,
    show (10000 : ℕ) = 150 * 66 + 100 from by norm_num,
    cex_pass 66 0 70 (-138) 100 (by norm_num) (by norm_num) (by norm_num),
    show (0 : ℕ) + 150 * 66 = 9900 from by norm_num,
    show (-138 : ℤ) + 2 * ((66 : ℕ) : ℤ) = -6 from by norm_num,
    show (70 : ℤ) - ((66 : ℕ) : ℤ) = 4 from by norm_num,
    show (100 : ℕ) = 98 + 2 from by norm_num,
    cex_two_decs 9900 4 (-6) 98 (by norm_num) (by norm_num) (by norm_num),
    show (-6 : ℤ) + 2 = -4 from by norm_num,
    show (4 : ℤ) - 1 = 3 from by norm_num,
    show (9900 : ℕ) + 2 = 9902 from by norm_num,
    show (98 : ℕ) = 98 + 0 from by norm_num,
    rebalance_skip (List.range 150) 150 98 0 9902 (-4) (cexState 3 3) (by norm_num)
      (fun j hj => by
        rw [show (9902 + j) % 150 = 2 + j from by omega,
          getD_range150 (2 + j) (by omega),
          lookupA_cexState_big 3 3 (2 + j) (by omega) (by omega)]),
    show (9902 : ℕ) + 98 = 10000 from by norm_num]
  rfl

/-- C6 counterexample: with 150 duplicate-free keys, all weights positive and
`total = 150 = |keys|`, the rebalancing loop's 10000-iteration cap is exhausted
with `diff = -4` outstanding, and the fallback drives the highest-weight key's
allocation to `-1 < 1`, refuting the claim that every key always receives at
least 1 under these preconditions. -/
theorem allocate_counts_fallback_cex :
    (List.range 150).Nodup ∧ ((List.range 150).length : ℤ) ≤ 150 ∧
      ((List.range 150).all fun k => decide (0 < wC6 k)) = true ∧
      lookupA (allocate_counts 150 (List.range 150) wC6) 0 = -1 := by
  refine ⟨List.nodup_range 150, by simp, by decide, ?_⟩
  rw [allocate_counts,
    if_neg (by simp : ¬((150 : ℤ) ≤ 0 ∨ (List.range 150).length = 0)),
    if_neg (by simp : ¬(150 : ℤ) < ((List.range 150).length : ℤ)), cex_rebalanced]
  rw [show ((10000, -4, cexState 3 3) : ℕ × ℤ × List (ℕ × ℤ)).2.2 = cexState 3 3 from rfl,
    show (150 : ℤ) - sumVals (cexState 3 3) = -4 from by decide]
  rw [if_pos (by norm_num : (-4 : ℤ) ≠ 0), skC6_eq,
    show (List.range 150).getD 0 default = 0 from getD_range150 0 (by omega),
    updAdd_cexState_zero]
  rfl


/-- C6 amended: for every `total ≥ |keys|` over a non-empty, duplicate-free key
list with positive weights, every key's allocated value is at least 1 *provided
the rebalancing loop clears the difference within its 10000-iteration cap* (the
floor-at-1 and the decrement guard preserve the bound); when the cap is
exhausted with a residual difference, the fallback can push the highest-weight
key to 0 or below, as the counterexample shows. -/
theorem allocate_counts_ge_one_of_converged (total : ℤ) (keys : List K) (w : K → ℚ)
    (hne : keys ≠ []) (hnd : keys.Nodup) (hw : ∀ k ∈ keys, 0 < w k)
    (ht : (keys.length : ℤ) ≤ total) (hconv : (rebalanced total keys w).2.1 = 0) :
    ∀ k ∈ keys, 1 ≤ lookupA (allocate_counts total keys w) k := by
  have hlen : 0 < keys.length := List.length_pos.mpr hne
  obtain ⟨g', hcanon, hsum, hge⟩ := rebalanceAux_spec (pySortDesc w keys) keys
    keys.length (pySortDesc_mem w keys) (pySortDesc_length w keys) hlen hnd
    10000 0 (total - sumVals (keys.map fun k => (k, targetFn total keys w k)))
    (targetFn total keys w)
  have hreb : rebalanced total keys w =
      rebalanceAux (pySortDesc w keys) keys.length 10000 0
        (total - sumVals (keys.map fun k => (k, targetFn total keys w k)))
        (keys.map fun k => (k, targetFn total keys w k)) := by
    rw [rebalanced, allocTargets_eq_map_fn]
  have ht' : (rebalanced total keys w).2.2 = keys.map fun k => (k, g' k) := by
    rw [hreb]
    exact congrArg (fun p => p.2.2) hcanon
  have hd' : (rebalanced total keys w).2.1 =
      (rebalanceAux (pySortDesc w keys) keys.length 10000 0
        (total - sumVals (keys.map fun k => (k, targetFn total keys w k)))
        (keys.map fun k => (k, targetFn total keys w k))).2.1 := by
    rw [hreb]
  have hsum2 : sumVals (rebalanced total keys w).2.2 = total := by
    have hz : (rebalanceAux (pySortDesc w keys) keys.length 10000 0
        (total - sumVals (keys.map fun k => (k, targetFn total keys w k)))
        (keys.map fun k => (k, targetFn total keys w k))).2.1 = 0 :=
      hd'.symm.trans hconv
    rw [hz] at hsum
    rw [ht', sumVals_map_fn]
    rw [sumVals_map_fn] at hsum
    omega
  rw [allocate_counts,
    if_neg (by push_neg; omega : ¬(total ≤ 0 ∨ keys.length = 0)),
    if_neg (by omega : ¬total < (keys.length : ℤ)),
    if_neg (by rw [hsum2]; simp)]
  intro k hk
  rw [ht', lookupA_map_fn, if_pos hk]
  exact hge k (one_le_targetFn total keys w k)

theorem allocate_counts_ge_one_witness :
    1 ≤ lookupA (allocate_counts 10 [0, 1] (fun k => if k = 0 then (1 : ℚ) else 3)) 0 :=
  allocate_counts_ge_one_of_converged 10 [0, 1]
    (fun k => if k = 0 then (1 : ℚ) else 3) (by decide) (by decide) (by decide)
    (by decide) (by decide) 0 (by decide)

/-! ### Stability and sortedness of the descending stable sort, for C7. -/

theorem pySortDesc_pair_rel (w : K → ℚ) (l : List K) (a b : K)
    (hab : [a, b].Sublist (pySortDesc w l)) : w b ≤ w a := by
  haveI h1 : IsTotal K (fun a b => w b ≤ w a) := ⟨fun a b => le_total (w b) (w a)⟩
  haveI h2 : IsTrans K (fun a b => w b ≤ w a) :=
    ⟨fun a b c hab hbc => le_trans hbc hab⟩
  have hs : List.Pairwise (fun a b => w b ≤ w a) (pySortDesc w l) :=
    List.sorted_insertionSort _ l
  have hp := List.Pairwise.sublist hab hs
  rcases List.pairwise_cons.mp hp with ⟨hfst, -⟩
  exact hfst b (List.mem_singleton.mpr rfl)

theorem pySortDesc_stable_pair (w : K → ℚ) :
    ∀ (l : List K) (a b : K), w a = w b →
      [a, b].Sublist (pySortDesc w l) → [a, b].Sublist l := by
  intro l
  induction l with
  | nil =>
    intro a b _ h
    rw [pySortDesc] at h
    simp [List.insertionSort] at h
  | cons x l ih =>
    intro a b hw hab
    rw [pySortDesc, List.insertionSort, List.orderedInsert_eq_take_drop] at hab
    rcases List.sublist_append_iff.mp hab with ⟨u₁, u₂, he, h1, h2⟩
    have hdropsub :
        (List.insertionSort (fun a b => w b ≤ w a) l).dropWhile
            (fun c => decide ¬(w c ≤ w x)) |>.Sublist
          (List.insertionSort (fun a b => w b ≤ w a) l) := List.dropWhile_sublist _
    have htakesub :
        (List.insertionSort (fun a b => w b ≤ w a) l).takeWhile
            (fun c => decide ¬(w c ≤ w x)) |>.Sublist
          (List.insertionSort (fun a b => w b ≤ w a) l) := List.takeWhile_sublist _
    cases u₁ with
    | nil =>
      -- the whole pair sits in `x :: s₂`
      rw [List.nil_append] at he
      rw [← he] at h2
      rcases List.sublist_cons_iff.mp h2 with h2' | ⟨rest, hre, hrest⟩
      · -- pair inside s₂ ⊆ sorted l
        have : [a, b].Sublist (List.insertionSort (fun a b => w b ≤ w a) l) :=
          h2'.trans hdropsub
        exact (ih a b hw (by rw [pySortDesc]; exact this)).cons x
      · -- a = x, b in s₂
        have hax : a = x := by
          have := List.cons.injEq a [b] x rest ▸ hre
          exact (List.cons.inj hre).1
        have hbrest : [b] = rest := (List.cons.inj hre).2
        have hbs : b ∈ List.insertionSort (fun a b => w b ≤ w a) l :=
          (List.dropWhile_sublist _).subset
            ((List.singleton_sublist.mp (hbrest ▸ hrest)))
        have hbl : b ∈ l := (List.perm_insertionSort _ l).mem_iff.mp hbs
        rw [hax]
        exact List.Sublist.cons₂ x (List.singleton_sublist.mpr hbl)
    | cons c u₁' =>
      cases u₁' with
      | nil =>
        -- u₁ = [a], u₂ = [b]
        have hca : a = c := (List.cons.inj he).1
        have hu2 : [b] = u₂ := (List.cons.inj he).2
        rw [← hca] at h1
        rw [← hu2] at h2
        have haw : ¬(w a ≤ w x) := by
          have := List.mem_takeWhile_imp (List.singleton_sublist.mp h1)
          simpa using this
        rcases List.sublist_cons_iff.mp h2 with h2' | ⟨rest, hre, hrest⟩
        · -- b ∈ s₂ : pair [a,b] <+ s₁ ++ s₂ = sorted l
          have hpair : [a, b].Sublist
              ((List.insertionSort (fun a b => w b ≤ w a) l).takeWhile
                  (fun c => decide ¬(w c ≤ w x)) ++
                (List.insertionSort (fun a b => w b ≤ w a) l).dropWhile
                  (fun c => decide ¬(w c ≤ w x))) := by
            have := List.Sublist.append h1 h2'
            exact this
          rw [List.takeWhile_append_dropWhile] at hpair
          exact (ih a b hw (by rw [pySortDesc]; exact hpair)).cons x
        · -- b = x : impossible, a tie cannot sit strictly above the new head
          have hbx : b = x := (List.cons.inj hre).1
          rw [hw, hbx] at haw
          exact absurd le_rfl haw
      | cons d u₁'' =>
        -- u₁ = [a, b] (u₂ = [])
        have hlens : u₁''.length = 0 ∧ u₂.length = 0 := by
          have h2l := congrArg List.length he
          simp only [List.length_cons, List.length_append, List.length_nil] at h2l
          omega
        have hu'' : u₁'' = [] := List.length_eq_zero.mp hlens.1
        rw [hu''] at he h1
        have hca : a = c := (List.cons.inj he).1
        have hdb : b = d := (List.cons.inj (List.cons.inj he).2).1
        rw [← hca, ← hdb] at h1
        have : [a, b].Sublist (List.insertionSort (fun a b => w b ≤ w a) l) :=
          h1.trans htakesub
        exact (ih a b hw (by rw [pySortDesc]; exact this)).cons x

theorem indexOf_lt_of_pair_sublist :
    ∀ (l : List K), l.Nodup → ∀ a b : K, a ≠ b → [a, b].Sublist l →
      l.indexOf a < l.indexOf b := by
  intro l
  induction l with
  | nil =>
    intro _ a b _ hab
    simp at hab
  | cons x l ih =>
    intro hnd a b hne hab
    rcases List.nodup_cons.mp hnd with ⟨hxl, hnd'⟩
    rcases List.sublist_cons_iff.mp hab with h | ⟨rest, hre, hrest⟩
    · have ha : a ∈ l := h.subset (by simp)
      have hb : b ∈ l := h.subset (by simp)
      have hax : x ≠ a := fun e => hxl (e ▸ ha)
      have hbx : x ≠ b := fun e => hxl (e ▸ hb)
      rw [List.indexOf_cons_ne _ hax, List.indexOf_cons_ne _ hbx]
      exact Nat.succ_lt_succ (ih hnd' a b hne h)
    · have hax : a = x := (List.cons.inj hre).1
      rw [← hax, List.indexOf_cons_self, List.indexOf_cons_ne _ hne]
      exact Nat.succ_pos _

/-- C7: for every `0 ≤ total < |keys|` over a duplicate-free key list,
`allocate_counts` gives exactly `total` keys the value 1 and all other keys 0:
the keys receiving 1 are the first `total` entries of the stable
descending-by-weight sort, i.e. the `total` highest-weight keys with ties among
equal weights broken by input order. -/
theorem allocate_counts_small_total_spec (total : ℤ) (keys : List K) (w : K → ℚ)
    (h0 : 0 ≤ total) (htn : total < (keys.length : ℤ)) (hnd : keys.Nodup) :
    (∀ k ∈ keys, lookupA (allocate_counts total keys w) k =
        if k ∈ (pySortDesc w keys).take total.toNat then 1 else 0) ∧
    ((pySortDesc w keys).take total.toNat).length = total.toNat ∧
    (∀ x ∈ (pySortDesc w keys).take total.toNat, x ∈ keys) ∧
    (∀ a ∈ (pySortDesc w keys).take total.toNat, ∀ b ∈ keys,
        b ∉ (pySortDesc w keys).take total.toNat →
        w b < w a ∨ (w b = w a ∧ keys.indexOf a < keys.indexOf b)) := by
  refine ⟨?_, ?_, ?_, ?_⟩
  · intro k hk
    by_cases ht0 : total ≤ 0
    · have htz : total = 0 := le_antisymm ht0 h0
      rw [allocate_counts, if_pos (Or.inl ht0),
        show (keys.map fun k => (k, (0 : ℤ))) =
          keys.map fun k => (k, (fun _ => (0 : ℤ)) k) from rfl,
        lookupA_map_fn, if_pos hk, htz]
      norm_num
    · rw [allocate_counts,
        if_neg (by push_neg; exact ⟨by omega, by omega⟩ :
          ¬(total ≤ 0 ∨ keys.length = 0)),
        if_pos htn,
        show (keys.map fun k => (k, (0 : ℤ))) =
          keys.map fun k => (k, (fun _ => (0 : ℤ)) k) from rfl,
        foldl_updA_map_fn, lookupA_map_fn, if_pos hk]
  · rw [List.length_take, pySortDesc_length]
    omega
  · intro x hx
    exact pySortDesc_mem w keys x ((List.take_sublist _ _).subset hx)
  · intro a ha b hb hbn
    have hbs : b ∈ pySortDesc w keys := (pySortDesc_perm w keys).mem_iff.mpr hb
    have hbdrop : b ∈ (pySortDesc w keys).drop total.toNat := by
      have hsplit := (List.take_append_drop total.toNat (pySortDesc w keys)).symm ▸ hbs
      rcases List.mem_append.mp hsplit with h | h
      · exact absurd h hbn
      · exact h
    have hpair : [a, b].Sublist (pySortDesc w keys) := by
      have h1 : [a].Sublist ((pySortDesc w keys).take total.toNat) :=
        List.singleton_sublist.mpr ha
      have h2 : [b].Sublist ((pySortDesc w keys).drop total.toNat) :=
        List.singleton_sublist.mpr hbdrop
      have h3 := List.Sublist.append h1 h2
      rwa [List.take_append_drop] at h3
    have hba : w b ≤ w a := pySortDesc_pair_rel w keys a b hpair
    rcases lt_or_eq_of_le hba with hlt | heq
    · exact Or.inl hlt
    · refine Or.inr ⟨heq, ?_⟩
      have hne : a ≠ b := by
        intro e
        rw [e] at ha
        exact hbn ha
      exact indexOf_lt_of_pair_sublist keys hnd a b hne
        (pySortDesc_stable_pair w keys a b heq.symm hpair)

theorem allocate_counts_small_total_witness :
    lookupA (allocate_counts 1 [10, 20, 30] (fun _ => (1 : ℚ))) 20 = 0 := by
  have h := (allocate_counts_small_total_spec 1 [10, 20, 30] (fun _ => (1 : ℚ))
    (by decide) (by decide) (by decide)).1 20 (by decide)
  rw [h]
  decide

/-! ### Weight normalization, the acceptance loop and the per-medium round loop
(claims C2, C4). -/

theorem normalize_weight_mem (w : Option ℤ) (level : String) :
    1 ≤ normalize_weight w level ∧ normalize_weight w level ≤ 5 := by
  cases w with
  | none =>
    simp only [normalize_weight, default_weight_by_level]
    split_ifs <;> omega
  | some n =>
    simp only [normalize_weight]
    split_ifs <;> omega

theorem acceptItems_spec (mk mname med level : String) :
    ∀ (got : List RawItem) (st : FillState), ∃ new : List Item,
      (acceptItems mk mname med level got st).1.final = st.final ++ new ∧
      (acceptItems mk mname med level got st).1.seen =
        (new.map Item.full_sentence).reverse ++ st.seen ∧
      (acceptItems mk mname med level got st).2 = new.length ∧
      new.length ≤ got.length ∧
      (∀ it ∈ new, it.full_sentence ∉ st.seen ∧ it.full_sentence ≠ "" ∧
          1 ≤ it.weight ∧ it.weight ≤ 5) ∧
      (new.map Item.full_sentence).Nodup := by
  intro got
  induction got with
  | nil =>
    intro st
    exact ⟨[], by simp [acceptItems], by simp [acceptItems], by simp [acceptItems],
      by simp, by simp, by simp⟩
  | cons it rest ih =>
    intro st
    by_cases hskip : pyStrip it.full_sentence = "" ∨ pyStrip it.full_sentence ∈ st.seen
    · have heq : acceptItems mk mname med level (it :: rest) st =
          acceptItems mk mname med level rest st := by
        rw [acceptItems, if_pos hskip]
      obtain ⟨new, h1, h2, h3, h4, h5, h6⟩ := ih st
      exact ⟨new, by rw [heq]; exact h1, by rw [heq]; exact h2, by rw [heq]; exact h3,
        by simp only [List.length_cons]; omega, h5, h6⟩
    · have hq1 : ¬pyStrip it.full_sentence = "" := fun h => hskip (Or.inl h)
      have hq2 : pyStrip it.full_sentence ∉ st.seen := fun h => hskip (Or.inr h)
      have heq : acceptItems mk mname med level (it :: rest) st =
          ((acceptItems mk mname med level rest
              ⟨st.final ++ [mkGenItem mk mname med level it (pyStrip it.full_sentence)],
                pyStrip it.full_sentence :: st.seen⟩).1,
            (acceptItems mk mname med level rest
              ⟨st.final ++ [mkGenItem mk mname med level it (pyStrip it.full_sentence)],
                pyStrip it.full_sentence :: st.seen⟩).2 + 1) := by
        rw [acceptItems, if_neg hskip]
      obtain ⟨new, h1, h2, h3, h4, h5, h6⟩ := ih
        ⟨st.final ++ [mkGenItem mk mname med level it (pyStrip it.full_sentence)],
          pyStrip it.full_sentence :: st.seen⟩
      refine ⟨mkGenItem mk mname med level it (pyStrip it.full_sentence) :: new,
        ?_, ?_, ?_, ?_, ?_, ?_⟩
      · rw [heq]
        show (acceptItems mk mname med level rest _).1.final = _
        rw [h1]
        simp [List.append_assoc]
      · rw [heq]
        show (acceptItems mk mname med level rest _).1.seen = _
        rw [h2]
        simp [mkGenItem, List.append_assoc]
      · rw [heq]
        show (acceptItems mk mname med level rest _).2 + 1 = _
        rw [h3]
        simp
      · simp only [List.length_cons]
        omega
      · intro x hx
        rcases List.mem_cons.mp hx with rfl | hxn
        · exact ⟨hq2, hq1, (normalize_weight_mem it.weight level).1,
            (normalize_weight_mem it.weight level).2⟩
        · obtain ⟨hn1, hn2, hn3, hn4⟩ := h5 x hxn
          refine ⟨fun hmem => hn1 ?_, hn2, hn3, hn4⟩
          simp only [List.mem_cons]
          exact Or.inr hmem
      · simp only [List.map_cons, List.nodup_cons]
        constructor
        · intro hq
          rcases List.mem_map.mp hq with ⟨x, hxn, hfs⟩
          apply (h5 x hxn).1
          simp only [List.mem_cons]
          left
          rw [hfs]
          rfl
        · exact h6

theorem fill_medium_props (oracle : GenOracle) (mk mname med level : String) :
    ∀ (fuel rounds : ℕ) (n_med : ℤ) (st : FillState), ∃ new : List Item,
      (fill_medium oracle mk mname med level fuel rounds n_med st).final =
        st.final ++ new ∧
      (∀ s ∈ st.seen,
          s ∈ (fill_medium oracle mk mname med level fuel rounds n_med st).seen) ∧
      (∀ it ∈ new, it.full_sentence ∉ st.seen ∧ it.full_sentence ≠ "" ∧
          it.full_sentence ∈
            (fill_medium oracle mk mname med level fuel rounds n_med st).seen ∧
          1 ≤ it.weight ∧ it.weight ≤ 5) ∧
      (new.map Item.full_sentence).Nodup ∧
      ((∀ r c ex, 0 < c → ((oracle r c ex).length : ℤ) ≤ c) →
        (new.length : ℤ) ≤ max n_med 0) := by
  intro fuel
  induction fuel with
  | zero =>
    intro rounds n_med st
    refine ⟨[], by simp [fill_medium], by intro s hs; simp [fill_medium]; exact hs,
      by simp, by simp, ?_⟩
    intro _
    simp only [List.length_nil, Nat.cast_zero]
    exact le_max_right _ _
  | succ fuel ih =>
    intro rounds n_med st
    by_cases hn : n_med ≤ 0
    · have heq : fill_medium oracle mk mname med level (fuel + 1) rounds n_med st = st := by
        rw [fill_medium, if_pos hn]
      refine ⟨[], by rw [heq]; simp, by rw [heq]; exact fun s hs => hs,
        by simp, by simp, ?_⟩
      intro _
      simp only [List.length_nil, Nat.cast_zero]
      exact le_max_right _ _
    · obtain ⟨new1, a1, a2, a3, a4, a5, a6⟩ := acceptItems_spec mk mname med level
        (oracle (rounds + 1) n_med
          ((st.final.map Item.full_sentence).filter fun s => s ≠ "")) st
      by_cases hz : (acceptItems mk mname med level
          (oracle (rounds + 1) n_med
            ((st.final.map Item.full_sentence).filter fun s => s ≠ "")) st).2 = 0
      · have heq : fill_medium oracle mk mname med level (fuel + 1) rounds n_med st =
            (acceptItems mk mname med level
              (oracle (rounds + 1) n_med
                ((st.final.map Item.full_sentence).filter fun s => s ≠ "")) st).1 := by
          rw [fill_medium, if_neg hn, if_pos hz]
        refine ⟨new1, by rw [heq]; exact a1, ?_, ?_, a6, ?_⟩
        · intro s hs
          rw [heq, a2]
          exact List.mem_append_right _ hs
        · intro x hx
          obtain ⟨hn1, hn2, hn3, hn4⟩ := a5 x hx
          refine ⟨hn1, hn2, ?_, hn3, hn4⟩
          rw [heq, a2]
          apply List.mem_append_left
          rw [List.mem_reverse]
          exact List.mem_map.mpr ⟨x, hx, rfl⟩
        · intro _
          rw [a3] at hz
          rw [hz]
          simp only [Nat.cast_zero]
          exact le_max_right _ _
      · have heq : fill_medium oracle mk mname med level (fuel + 1) rounds n_med st =
            fill_medium oracle mk mname med level fuel (rounds + 1)
              (n_med - ((acceptItems mk mname med level
                (oracle (rounds + 1) n_med
                  ((st.final.map Item.full_sentence).filter fun s => s ≠ "")) st).2 : ℤ))
              (acceptItems mk mname med level
                (oracle (rounds + 1) n_med
                  ((st.final.map Item.full_sentence).filter fun s => s ≠ "")) st).1 := by
          rw [fill_medium, if_neg hn, if_neg hz]
        obtain ⟨new2, b1, b2, b3, b4, b5⟩ := ih (rounds + 1)
          (n_med - ((acceptItems mk mname med level
            (oracle (rounds + 1) n_med
              ((st.final.map Item.full_sentence).filter fun s => s ≠ "")) st).2 : ℤ))
          (acceptItems mk mname med level
            (oracle (rounds + 1) n_med
              ((st.final.map Item.full_sentence).filter fun s => s ≠ "")) st).1
        have hsub : ∀ s ∈ st.seen, s ∈ (acceptItems mk mname med level
            (oracle (rounds + 1) n_med
              ((st.final.map Item.full_sentence).filter fun s => s ≠ "")) st).1.seen := by
          intro s hs
          rw [a2]
          exact List.mem_append_right _ hs
        have hmem1 : ∀ x ∈ new1, x.full_sentence ∈ (acceptItems mk mname med level
            (oracle (rounds + 1) n_med
              ((st.final.map Item.full_sentence).filter fun s => s ≠ "")) st).1.seen := by
          intro x hx
          rw [a2]
          apply List.mem_append_left
          rw [List.mem_reverse]
          exact List.mem_map.mpr ⟨x, hx, rfl⟩
        refine ⟨new1 ++ new2, ?_, ?_, ?_, ?_, ?_⟩
        · rw [heq, b1, a1, List.append_assoc]
        · intro s hs
          rw [heq]
          exact b2 s (hsub s hs)
        · intro x hx
          rcases List.mem_append.mp hx with hx1 | hx2
          · obtain ⟨hn1, hn2, hn3, hn4⟩ := a5 x hx1
            refine ⟨hn1, hn2, ?_, hn3, hn4⟩
            rw [heq]
            exact b2 _ (hmem1 x hx1)
          · obtain ⟨hn1, hn2, hn3, hn4, hn5⟩ := b3 x hx2
            refine ⟨fun hmem => hn1 (hsub _ hmem), hn2, by rw [heq]; exact hn3, hn4, hn5⟩
        · rw [List.map_append, List.nodup_append]
          refine ⟨a6, b4, ?_⟩
          intro s hs1 hs2
          rcases List.mem_map.mp hs1 with ⟨x, hx, rfl⟩
          rcases List.mem_map.mp hs2 with ⟨y, hy, hxy⟩
          exact (b3 y hy).1 (hxy ▸ hmem1 x hx)
        · intro hor
          have hb5 := b5 hor
          have hlen1 : ((oracle (rounds + 1) n_med
              ((st.final.map Item.full_sentence).filter fun s => s ≠ "")).length : ℤ) ≤
              n_med := hor (rounds + 1) n_med _ (by omega)
          have ha3 : (acceptItems mk mname med level
              (oracle (rounds + 1) n_med
                ((st.final.map Item.full_sentence).filter fun s => s ≠ "")) st).2 =
              new1.length := a3
          have hmax : max (n_med - ((acceptItems mk mname med level
              (oracle (rounds + 1) n_med
                ((st.final.map Item.full_sentence).filter fun s => s ≠ "")) st).2 : ℤ)) 0 =
              n_med - (new1.length : ℤ) := by
            rw [ha3]
            apply max_eq_left
            omega
          rw [hmax] at hb5
          rw [List.length_append]
          push_cast
          rw [max_eq_left (by omega : (0 : ℤ) ≤ n_med)]
          omega

/-- C2 counterexample: when the model over-returns (two distinct novel items in
a round that requested only 1), the acceptance loop appends them all, so the
per-medium round loop adds 2 items for a target count of 1 — the "at most
target_count" half of the claim fails on the code. -/
theorem fill_medium_overshoot_cex :
    (fill_medium oracleC2 "I" "N" "M" "Lv3" 3 0 1 ⟨[], []⟩).final.length = 2 ∧
      ¬(fill_medium oracleC2 "I" "N" "M" "Lv3" 3 0 1 ⟨[], []⟩).final.length ≤ 1 := by
  constructor <;> decide

/-- C2 amended: for every medium and every running seen-sentence set, the
per-medium round loop of `generate_items` (3 rounds, shrinking request counts)
preserves the already-final items and — unconditionally, for every oracle —
never adds an item whose sentence exactly matches one in the running seen set
or another sentence added in the same batch; provided every model response to a
request for `c > 0` items returns at most `c` items, it moreover adds at most
`target_count` items. -/
theorem fill_medium_bounded_and_deduped (oracle : GenOracle)
    (mk mname med level : String) (n_med : ℤ) (st : FillState) :
    ((fill_medium oracle mk mname med level 3 0 n_med st).final.take
        st.final.length = st.final) ∧
    ((∀ r c ex, 0 < c → ((oracle r c ex).length : ℤ) ≤ c) →
      ((fill_medium oracle mk mname med level 3 0 n_med st).final.length : ℤ) ≤
        (st.final.length : ℤ) + max n_med 0) ∧
    (∀ it ∈ (fill_medium oracle mk mname med level 3 0 n_med st).final.drop
        st.final.length, it.full_sentence ∉ st.seen ∧ it.full_sentence ≠ "") ∧
    (((fill_medium oracle mk mname med level 3 0 n_med st).final.drop
        st.final.length).map Item.full_sentence).Nodup := by
  obtain ⟨new, h1, h2, h3, h4, h5⟩ := fill_medium_props oracle mk mname med level 3 0 n_med st
  rw [h1]
  refine ⟨List.take_left _ _, ?_, ?_, ?_⟩
  · intro hor
    rw [List.length_append]
    have hb := h5 hor
    push_cast
    omega
  · rw [List.drop_left]
    intro it hit
    exact ⟨(h3 it hit).1, (h3 it hit).2.1⟩
  · rw [List.drop_left]
    exact h4

theorem fill_medium_bounded_witness :
    (((fill_medium oracleC2 "I" "N" "M" "Lv3" 3 0 1 ⟨[], []⟩).final.drop 0).map
        Item.full_sentence).Nodup ∧
      ((fill_medium (fun _ _ _ => ([] : List RawItem)) "I" "N" "M" "Lv3" 3 0 2
          ⟨[], []⟩).final.length : ℤ) ≤ 2 := by
  constructor
  · exact (fill_medium_bounded_and_deduped oracleC2 "I" "N" "M" "Lv3" 1 ⟨[], []⟩).2.2.2
  · have h := (fill_medium_bounded_and_deduped (fun _ _ _ => ([] : List RawItem))
      "I" "N" "M" "Lv3" 2 ⟨[], []⟩).2.1 (by intro r c ex hc; simp; omega)
    simpa using h

/-- C4 counterexample: `regenerate_specific_item` copies the parsed response's
`weight` value into the item verbatim, with no `normalize_weight` call: a
successful response carrying `weight = 99` yields an item whose weight is 99,
outside `[1, 5]`. -/
theorem regenerate_weight_unclamped_cex :
    5 < (regenerate_specific_item (some
      { purpose := some "p", action := some "a", result := some "r",
        full_sentence := some "s", weight := some 99,
        category_large_key := none, category_large_name := none,
        category_medium := none }) itemBase "duplicate" []).weight := by
  decide

/-- C4 amended: every item created by the batch generation loop of
`generate_items` has `weight = normalize_weight(model weight, level)`, an
integer in `[1, 5]` (defaulted by level when the model value is missing or
non-numeric); `regenerate_specific_item`, however, copies the response's
weight verbatim without normalization. -/
theorem generated_item_weight_in_range (oracle : GenOracle)
    (mk mname med level : String) (fuel rounds : ℕ) (n_med : ℤ) (st : FillState) :
    ∀ it ∈ (fill_medium oracle mk mname med level fuel rounds n_med st).final.drop
        st.final.length, 1 ≤ it.weight ∧ it.weight ≤ 5 := by
  obtain ⟨new, h1, h2, h3, h4, h5⟩ :=
    fill_medium_props oracle mk mname med level fuel rounds n_med st
  rw [h1, List.drop_left]
  intro it hit
  exact ⟨(h3 it hit).2.2.2.1, (h3 it hit).2.2.2.2⟩

theorem generated_item_weight_witness :
    1 ≤ itemGen2.weight ∧ itemGen2.weight ≤ 5 :=
  generated_item_weight_in_range oracleC2 "I" "N" "M" "Lv3" 3 0 1 ⟨[], []⟩ itemGen2
    (by decide)

/-- C5 counterexample: `new_item.update(parsed)` overwrites every key present in
the parsed response, so a successful response that carries a `category_medium`
key replaces the item's category-medium identity field, refuting the claim for
arbitrary successful responses. -/
theorem regenerate_overwrites_identity_cex :
    (regenerate_specific_item (some
      { purpose := some "p", action := some "a", result := some "r",
        full_sentence := some "s", weight := some 3,
        category_large_key := none, category_large_name := none,
        category_medium := some "X" }) itemBase "duplicate" []).category_medium ≠
      itemBase.category_medium := by
  decide

/-- C5 amended: for every successful response that contains only the five
expected content keys (purpose / action / result / full sentence / weight — the
identity keys absent), `regenerate_specific_item` returns a copy of the input
item with exactly those five fields overlaid and the category key, category
display name and medium name unchanged. -/
theorem regenerate_preserves_fields_of_expected_shape (call : RegenResponse)
    (item : Item) (mode : String) (ex : List String)
    (hk : call.category_large_key = none) (hn : call.category_large_name = none)
    (hm : call.category_medium = none) :
    (regenerate_specific_item (some call) item mode ex).category_large_key =
        item.category_large_key ∧
    (regenerate_specific_item (some call) item mode ex).category_large_name =
        item.category_large_name ∧
    (regenerate_specific_item (some call) item mode ex).category_medium =
        item.category_medium ∧
    (regenerate_specific_item (some call) item mode ex).purpose =
        call.purpose.getD item.purpose ∧
    (regenerate_specific_item (some call) item mode ex).action =
        call.action.getD item.action ∧
    (regenerate_specific_item (some call) item mode ex).result =
        call.result.getD item.result ∧
    (regenerate_specific_item (some call) item mode ex).full_sentence =
        call.full_sentence.getD item.full_sentence ∧
    (regenerate_specific_item (some call) item mode ex).weight =
        call.weight.getD item.weight := by
  simp [regenerate_specific_item, hk, hn, hm]

theorem regenerate_preserves_fields_witness :
    (regenerate_specific_item (some
      { purpose := some "p", action := some "a", result := some "r",
        full_sentence := some "s", weight := some 4,
        category_large_key := none, category_large_name := none,
        category_medium := none }) itemBase "duplicate" []).category_medium = "M" ∧
    (regenerate_specific_item (some
      { purpose := some "p", action := some "a", result := some "r",
        full_sentence := some "s", weight := some 4,
        category_large_key := none, category_large_name := none,
        category_medium := none }) itemBase "duplicate" []).weight = 4 := by
  have h := regenerate_preserves_fields_of_expected_shape
    { purpose := some "p", action := some "a", result := some "r",
      full_sentence := some "s", weight := some 4,
      category_large_key := none, category_large_name := none,
      category_medium := none } itemBase "duplicate" [] rfl rfl rfl
  exact ⟨h.2.2.1.trans rfl, h.2.2.2.2.2.2.2.trans rfl⟩

/-- C8: whenever the underlying generative call fails (exception, unparsable
output — modelled by `none`), and likewise when no model client is configured,
`regenerate_specific_item` returns an item equal to its input item; the
source's `try/except` means no exception ever propagates to the caller. -/
theorem regenerate_failure_returns_input (item : Item) (mode : String)
    (existing_questions : List String) :
    regenerate_specific_item none item mode existing_questions = item := rfl

/-- C9: every pair flagged by `check_duplicates` whose two items share the same
category key is classified `"group"` (within-category), and every flagged pair
with differing category keys is classified `"global"` (cross-category). -/
theorem check_duplicates_classification (sim : String → String → ℚ)
    (items : List Item) (threshold : ℚ) (d : DupEntry)
    (hd : d ∈ check_duplicates sim items threshold) :
    (d.itemA.category_large_key = d.itemB.category_large_key →
        d.dup_type = "group") ∧
    (d.itemA.category_large_key ≠ d.itemB.category_large_key →
        d.dup_type = "global") := by
  rw [check_duplicates] at hd
  rcases List.mem_flatMap.mp hd with ⟨i, hi, hdi⟩
  rcases List.mem_filterMap.mp hdi with ⟨j, hj, hde⟩
  by_cases h1 : pyStrip (items.getD i default).full_sentence = "" ∨
      pyStrip (items.getD j default).full_sentence = ""
  · rw [if_pos h1] at hde
    cases hde
  · rw [if_neg h1] at hde
    by_cases h2 : threshold ≤ sim (pyStrip (items.getD i default).full_sentence)
        (pyStrip (items.getD j default).full_sentence)
    · rw [if_pos h2] at hde
      have hdd := Option.some.inj hde
      rw [← hdd]
      constructor
      · intro hk
        simp only at hk ⊢
        rw [if_pos hk]
      · intro hk
        simp only at hk ⊢
        rw [if_neg hk]
    · rw [if_neg h2] at hde
      cases hde

theorem check_duplicates_classification_witness :
    ({ idxA := 0, itemA := itemD1, idxB := 1, itemB := itemD2, score := 1,
        dup_type := "group" } : DupEntry).dup_type = "group" := by
  have h := check_duplicates_classification simExact [itemD1, itemD2] (1/2)
    { idxA := 0, itemA := itemD1, idxB := 1, itemB := itemD2, score := 1,
      dup_type := "group" } (by decide)
  exact h.1 (by decide)
